import Mathlib

/-!
Shallow embedding of the mdq markdown-query tool (parser.go, query.go,
types.go) and proofs about its parsing and query-execution behavior.

Go strings are modeled as Lean `String` (a structure over `List Char`);
the byte-level Go code only ever splits on ASCII characters, so the
character-level model is faithful.  Go's `map[string]interface{}` for
frontmatter is modeled as an association list, and the YAML values the
engine distinguishes (nil vs. non-nil, the latter rendered by
`fmt.Sprintf`) as an inductive with a null and a rendered-string case.
The external YAML decoder (gopkg.in/yaml.v3, not part of this
repository) is passed in as a function parameter returning `Option`,
`none` standing for a decode error, which the Go code swallows.
-/

namespace Mdq

/-- Character class of Go's `strings.TrimSpace` cut set (ASCII part of
`unicode.IsSpace`): space, tab, newline, carriage return, vertical tab,
form feed. -/
def isSpaceChar (c : Char) : Bool :=
  c = ' ' || c = '\t' || c = '\n' || c = '\r' || c = '\x0b' || c = '\x0c'

/-- List-level model of Go `strings.TrimSpace`. -/
def trimSpaceL (l : List Char) : List Char :=
  ((l.dropWhile isSpaceChar).reverse.dropWhile isSpaceChar).reverse

/-- Go `strings.TrimSpace`. -/
def trimSpace (s : String) : String :=
  ⟨trimSpaceL s.data⟩

/-- List-level model of Go `strings.TrimRight(s, "\n")`. -/
def trimRightNlL (l : List Char) : List Char :=
  (l.reverse.dropWhile (fun c => c = '\n')).reverse

/-- Go `strings.TrimRight(s, "\n")`. -/
def trimRightNl (s : String) : String :=
  ⟨trimRightNlL s.data⟩

/-- Go `strings.HasPrefix s pre`. -/
def strStartsWith (s pre : String) : Bool :=
  pre.data.isPrefixOf s.data

/-- List-level model of Go `strings.Split(s, "\n")`: split at every
newline, keeping empty segments (always at least one segment). -/
def splitNlL : List Char → List (List Char)
  | [] => [[]]
  | c :: rest =>
    if c = '\n' then [] :: splitNlL rest
    else
      match splitNlL rest with
      | [] => [[c]]
      | l :: ls => (c :: l) :: ls

/-- Go `strings.Split(content, "\n")`. -/
def splitLines (s : String) : List String :=
  (splitNlL s.data).map (fun l => ⟨l⟩)

/-- List-level model of Go `strings.Join(xs, "\n")`. -/
def joinNlL : List (List Char) → List Char
  | [] => []
  | [l] => l
  | l :: ls => l ++ '\n' :: joinNlL ls

/-- Go `strings.Join(xs, "\n")`. -/
def joinLines (xs : List String) : String :=
  ⟨joinNlL (xs.map String.data)⟩

/-- A markdown section (types.go `Section`): level, title (without
markers), verbatim heading line, body text, and index among sections of
the same level. -/
structure Section where
  level : Nat
  title : String
  heading : String
  body : String
  index : Nat
deriving DecidableEq, Repr

/-- A YAML value as the engine observes it: Go's `interface{}` is either
nil (`vnull`) or a non-nil value, which the engine only ever renders with
`fmt.Sprintf`; `vstr` carries that rendered form. -/
inductive YamlValue where
  | vnull : YamlValue
  | vstr : String → YamlValue
deriving DecidableEq, Repr

/-- A parsed markdown document (types.go `Document`); the Go
`map[string]interface{}` frontmatter is modeled as an association
list. -/
structure Document where
  filePath : String
  frontmatter : List (String × YamlValue)
  sections : List Section
deriving DecidableEq, Repr

/-- A parsed query (types.go `Query`, current version with the
`ExplicitIndex` flag used by query.go). -/
structure Query where
  type : String
  level : Nat
  title : String
  index : Nat
  explicitIndex : Bool
  field : String
deriving DecidableEq, Repr

/-- The result of a query (types.go `QueryResult`).  The Go fields are
plain strings whose zero value is the empty string; an "absent"
heading or body is represented by the empty string, exactly as in the
Go struct. -/
structure QueryResult where
  file : String
  query : String
  heading : String
  body : String
deriving DecidableEq, Repr

/-- Command-line options (types.go `Options`). -/
structure Options where
  headOnly : Bool
  bodyOnly : Bool
  jsonOutput : Bool
  noBlocks : Bool
  rawOutput : Bool
  objectOutput : Bool
  csvOutput : Bool
deriving DecidableEq, Repr

/-- The heading test of parser.go line 53:
`strings.HasPrefix(strings.TrimSpace(line), "#")`. -/
def isHeadingLine (line : String) : Bool :=
  strStartsWith (trimSpace line) "#"

/-- Heading level (parser.go lines 62-66): number of leading marker
characters of the trimmed line. -/
def headingLevel (line : String) : Nat :=
  ((trimSpace line).data.takeWhile (fun c => c = '#')).length

/-- Heading title (parser.go line 68): the trimmed line minus its
marker run, trimmed again. -/
def headingTitle (line : String) : String :=
  trimSpace ⟨(trimSpace line).data.drop (headingLevel line)⟩

/-- Closing the open section (parser.go lines 56 and 88): its body is
the accumulated lines joined by newline with trailing newlines
stripped. -/
def closeSection (cur : Section) (bodyLines : List String) : Section :=
  { cur with body := trimRightNl (joinLines bodyLines) }

/-- The section-scan loop of parser.go lines 49-90.  State: the running
per-level counter `counts` (Go `levelCounts`), the currently open
section `cur` (Go `currentSection`), and the accumulated body lines.
Note the Go loop resets `bodyLines` only when a previous section is
closed, so lines accumulated before the first heading stay in the
buffer and flow into the first section's body. -/
def parseSections (counts : Nat → Nat) (cur : Option Section)
    (bodyLines : List String) : List String → List Section
  | [] =>
    match cur with
    | none => []
    | some s => [closeSection s bodyLines]
  | line :: rest =>
    if isHeadingLine line then
      let level := headingLevel line
      let counts' : Nat → Nat := fun l => if l = level then counts l + 1 else counts l
      let newSec : Section :=
        { level := level, title := headingTitle line, heading := line,
          body := "", index := counts' level - 1 }
      (match cur with
       | none => []
       | some s => [closeSection s bodyLines]) ++
        parseSections counts' (some newSec)
          (if cur.isSome then [] else bodyLines) rest
    else
      parseSections counts cur (bodyLines ++ [line]) rest

/-- The frontmatter scan of parser.go lines 29-36: collect lines until a
line that trims to the delimiter (consumed), returning the collected
lines and the remainder.  With no closing delimiter every line is
collected. -/
def splitFrontmatter : List String → List String × List String
  | [] => ([], [])
  | line :: rest =>
    if trimSpace line = "---" then ([], rest)
    else
      let p := splitFrontmatter rest
      (line :: p.1, p.2)

/-- Go `dropCR` (bufio ScanLines helper): drop one trailing carriage
return. -/
def dropCR (l : List Char) : List Char :=
  if l.getLast? = some '\r' then l.dropLast else l

/-- Lines produced by `bufio.Scanner` with the default `ScanLines`
split: split at newlines, drop the trailing empty segment left by a
final newline (empty input yields no lines), and strip one carriage
return from the end of each line. -/
def scanLines (text : String) : List String :=
  let parts := splitNlL text.data
  let parts := if parts.getLast? = some [] then parts.dropLast else parts
  parts.map (fun l => ⟨dropCR l⟩)

/-- The line filter of removeCodeBlocks (parser.go lines 108-120): a
line whose trimmed form starts with the fence token toggles the
in-code-block state and is dropped; other lines are kept while outside
a block. -/
def removeCodeBlocksLoop (inCodeBlock : Bool) : List String → List String
  | [] => []
  | line :: rest =>
    if strStartsWith (trimSpace line) "```" then
      removeCodeBlocksLoop (!inCodeBlock) rest
    else if inCodeBlock then
      removeCodeBlocksLoop inCodeBlock rest
    else
      line :: removeCodeBlocksLoop inCodeBlock rest

/-- Each kept line is written followed by a newline (parser.go lines
117-118). -/
def appendNl (ls : List String) : List Char :=
  (ls.map (fun s => s.data ++ ['\n'])).flatten

/-- parser.go `removeCodeBlocks`: scan the text line by line, drop
fenced regions, and trim trailing newlines from the rebuilt text. -/
def removeCodeBlocks (text : String) : String :=
  trimRightNl ⟨appendNl (removeCodeBlocksLoop false (scanLines text))⟩

/-- parser.go `ParseDocument`.  The external YAML decoder is a
parameter; `none` models a decode error, which the Go code ignores,
leaving the frontmatter map empty (`yaml.Unmarshal`'s return value is
discarded). -/
def ParseDocument (content : String) (filePath : String) (noBlocks : Bool)
    (decodeYaml : String → Option (List (String × YamlValue))) : Document :=
  let lines := splitLines content
  let parsed : List (String × YamlValue) × List String :=
    match lines with
    | [] => ([], [])
    | first :: restLines =>
      if trimSpace first = "---" then
        let p := splitFrontmatter restLines
        (if p.1 ≠ [] then (decodeYaml (joinLines p.1)).getD [] else [], p.2)
      else ([], lines)
  let secs := parseSections (fun _ => 0) none [] parsed.2
  { filePath := filePath
    frontmatter := parsed.1
    sections :=
      if noBlocks then
        secs.map (fun s => { s with body := removeCodeBlocks s.body })
      else secs }

/-- parser.go `ParseDocument` with its Go signature
`(*Document, error)`: the single return statement is `return doc, nil`,
so the error is always absent. -/
def ParseDocumentE (content : String) (filePath : String) (noBlocks : Bool)
    (decodeYaml : String → Option (List (String × YamlValue))) :
    Except String Document :=
  Except.ok (ParseDocument content filePath noBlocks decodeYaml)

/-- Suffix recognizer for the regex tail `\(\d+)]$` applied at a
candidate bracket: succeeds when the input is a digit run followed by a
single closing bracket ending the string, returning the digits (possibly
none, which the caller rejects since the regex needs at least one). -/
def readDigitsBr : List Char → Option (List Char)
  | [] => none
  | [c] => if c = ']' then some [] else none
  | c :: rest =>
    if c.isDigit then (readDigitsBr rest).map (fun ds => c :: ds) else none

/-- query.go line 32, the regex `^(.*?)\[(\d+)]$`: the whole input must
be title ++ bracket ++ digits ++ bracket-close; the lazy group makes the
title the shortest such prefix (at most one split can succeed, since the
digit run admits no bracket).  Returns the title part and the digits. -/
def matchIndexSuffix : List Char → Option (List Char × List Char)
  | [] => none
  | c :: rest =>
    match (if c = '[' then readDigitsBr rest else none) with
    | some ds =>
      if ds.length > 0 then some ([], ds)
      else
        match matchIndexSuffix rest with
        | some p => some (c :: p.1, p.2)
        | none => none
    | none =>
      match matchIndexSuffix rest with
      | some p => some (c :: p.1, p.2)
      | none => none

/-- Go `strconv.Atoi` on a pure digit run (the only form the regex lets
through): the decimal value. -/
def digitsToNat (ds : List Char) : Nat :=
  ds.foldl (fun acc c => 10 * acc + (c.toNat - '0'.toNat)) 0

/-- query.go `ParseQuery`.  The Go function also returns an error that
is always nil. -/
def ParseQuery (queryStr : String) : Query :=
  if strStartsWith queryStr "#" then
    let level := (queryStr.data.takeWhile (fun c => c = '#')).length
    let rest := queryStr.data.drop level
    match matchIndexSuffix rest with
    | some p =>
      { type := "section", level := level, title := trimSpace ⟨p.1⟩,
        index := digitsToNat p.2, explicitIndex := true, field := "" }
    | none =>
      { type := "section", level := level, title := trimSpace ⟨rest⟩,
        index := 0, explicitIndex := false, field := "" }
  else
    { type := "frontmatter", level := 0, title := "", index := 0,
      explicitIndex := false, field := queryStr }

/-- query.go `formatQuery`: canonical re-rendering of a query, the
`queryText` of every result record. -/
def formatQuery (q : Query) : String :=
  if q.type = "frontmatter" then q.field
  else
    ⟨List.replicate q.level '#' ++ q.title.data ++
      (if q.explicitIndex then '[' :: (toString q.index).data ++ [']'] else [])⟩

/-- Lookup in the frontmatter mapping (Go map indexing `value, ok :=
doc.Frontmatter[query.Field]`, on the association-list model). -/
def lookupFm : List (String × YamlValue) → String → Option YamlValue
  | [], _ => none
  | kv :: rest, key => if kv.1 = key then some kv.2 else lookupFm rest key

/-- Rendering of a frontmatter value (query.go lines 69-72): nil yields
the empty string, anything else its `fmt.Sprintf` form. -/
def yamlBodyStr : YamlValue → String
  | .vnull => ""
  | .vstr s => s

/-- A section result record (query.go lines 101-110 / 115-124): body
unless head-only, heading unless body-only. -/
def mkSectionResult (doc : Document) (query : Query) (opts : Options)
    (s : Section) : QueryResult :=
  { file := doc.filePath
    query := formatQuery query
    heading := if !opts.bodyOnly then s.heading else ""
    body := if !opts.headOnly then s.body else "" }

/-- The section loop of query.go `ExecuteQuery` (lines 86-140),
including the post-loop placeholder for an explicit-index miss. -/
def execSections (doc : Document) (query : Query) (opts : Options) :
    List Section → Nat → List QueryResult → List QueryResult
  | [], _, results =>
    if query.explicitIndex && results.length = 0 then
      [{ file := doc.filePath, query := formatQuery query,
         heading := "", body := "" }]
    else results
  | s :: rest, matchIndex, results =>
    if s.level ≠ query.level then
      execSections doc query opts rest matchIndex results
    else if query.title ≠ "" ∧ s.title ≠ query.title then
      execSections doc query opts rest matchIndex results
    else if query.explicitIndex then
      if matchIndex = query.index then [mkSectionResult doc query opts s]
      else execSections doc query opts rest (matchIndex + 1) results
    else
      execSections doc query opts rest (matchIndex + 1)
        (results ++ [mkSectionResult doc query opts s])

/-- query.go `ExecuteQuery`. -/
def ExecuteQuery (doc : Document) (query : Query) (opts : Options) :
    List QueryResult :=
  if query.type = "frontmatter" then
    match lookupFm doc.frontmatter query.field with
    | some value =>
      [{ file := doc.filePath
         query := formatQuery query
         body := if !opts.headOnly then yamlBodyStr value else ""
         heading := if !opts.bodyOnly && !opts.rawOutput then query.field else "" }]
    | none =>
      [{ file := doc.filePath, query := formatQuery query,
         heading := "", body := "" }]
  else
    execSections doc query opts doc.sections 0 []

/-- Spec §4.4 steps 1-2: the sections passing the level filter and,
when the query title is non-empty, the title filter.  Stated from the
spec's words, to be compared with the loop in `execSections`. -/
def specFilterSections (sections : List Section) (level : Nat)
    (title : String) : List Section :=
  sections.filter (fun s => s.level == level && (title == "" || s.title == title))

theorem execSections_nonexplicit (doc : Document) (q : Query) (opts : Options)
    (h : q.explicitIndex = false) :
    ∀ (secs : List Section) (mi : Nat) (acc : List QueryResult),
      execSections doc q opts secs mi acc =
        acc ++ (specFilterSections secs q.level q.title).map
          (mkSectionResult doc q opts)
  | [], mi, acc => by
    simp [execSections, specFilterSections, h]
  | s :: rest, mi, acc => by
    simp only [execSections, specFilterSections, List.filter_cons, h]
    by_cases hl : s.level = q.level
    · by_cases ht : q.title ≠ "" ∧ s.title ≠ q.title
      · rw [if_neg (by simp [hl]), if_pos ht]
        have hb : (s.level == q.level && (q.title == "" || s.title == q.title)) = false := by
          simp [hl, ht.1, ht.2]
        rw [hb]
        exact execSections_nonexplicit doc q opts h rest mi acc
      · rw [if_neg (by simp [hl]), if_neg ht, if_neg (by simp [h])]
        have hb : (s.level == q.level && (q.title == "" || s.title == q.title)) = true := by
          rcases not_and_or.mp ht with h1 | h2
          · simp [hl, not_ne_iff.mp h1]
          · simp [hl, not_ne_iff.mp h2]
        rw [hb]
        rw [execSections_nonexplicit doc q opts h rest (mi + 1)
          (acc ++ [mkSectionResult doc q opts s])]
        simp [specFilterSections]
    · rw [if_pos hl]
      have hb : (s.level == q.level && (q.title == "" || s.title == q.title)) = false := by
        simp [hl]
      rw [hb]
      exact execSections_nonexplicit doc q opts h rest mi acc

theorem execSections_explicit (doc : Document) (q : Query) (opts : Options)
    (h : q.explicitIndex = true) :
    ∀ (secs : List Section) (mi : Nat), mi ≤ q.index →
      execSections doc q opts secs mi [] =
        match (specFilterSections secs q.level q.title)[q.index - mi]? with
        | some s => [mkSectionResult doc q opts s]
        | none => [{ file := doc.filePath, query := formatQuery q,
                     heading := "", body := "" }]
  | [], mi, _ => by
    simp [execSections, specFilterSections, h]
  | s :: rest, mi, hmi => by
    simp only [execSections, specFilterSections, List.filter_cons, h]
    by_cases hl : s.level = q.level
    · by_cases ht : q.title ≠ "" ∧ s.title ≠ q.title
      · rw [if_neg (by simp [hl]), if_pos ht]
        have hb : (s.level == q.level && (q.title == "" || s.title == q.title)) = false := by
          simp [hl, ht.1, ht.2]
        rw [hb]
        exact execSections_explicit doc q opts h rest mi hmi
      · rw [if_neg (by simp [hl]), if_neg ht, if_pos trivial]
        have hb : (s.level == q.level && (q.title == "" || s.title == q.title)) = true := by
          rcases not_and_or.mp ht with h1 | h2
          · simp [hl, not_ne_iff.mp h1]
          · simp [hl, not_ne_iff.mp h2]
        rw [hb]
        by_cases hidx : mi = q.index
        · rw [if_pos hidx]
          have : q.index - mi = 0 := by omega
          simp [this, specFilterSections]
        · rw [if_neg hidx]
          have hlt : mi + 1 ≤ q.index := by omega
          rw [execSections_explicit doc q opts h rest (mi + 1) hlt]
          have : q.index - mi = (q.index - (mi + 1)) + 1 := by omega
          simp [this, specFilterSections]
    · rw [if_pos hl]
      have hb : (s.level == q.level && (q.title == "" || s.title == q.title)) = false := by
        simp [hl]
      rw [hb]
      exact execSections_explicit doc q opts h rest mi hmi

/-- C1: for every document and every section query whose explicit-index
flag is unset, `ExecuteQuery` returns one result record per section
passing the level filter (and the title filter when the query title is
non-empty), in document order, each populated from that section's own
heading and body; in particular, when no section passes the filters the
result list is empty, with no placeholder record. -/
theorem C1_implicit_returns_all_filtered (doc : Document) (level : Nat)
    (title : String) (n : Nat) (f : String) (opts : Options) :
    ExecuteQuery doc ⟨"section", level, title, n, false, f⟩ opts =
      (specFilterSections doc.sections level title).map
        (mkSectionResult doc ⟨"section", level, title, n, false, f⟩ opts) := by
  have hne : ¬ ((⟨"section", level, title, n, false, f⟩ : Query).type = "frontmatter") :=
    show ¬ (("section" : String) = "frontmatter") by decide
  rw [ExecuteQuery, if_neg hne]
  exact execSections_nonexplicit doc _ opts rfl doc.sections 0 []

/-- C2: for every document and every section query whose explicit-index
flag is set with value `n`, `ExecuteQuery` returns only the section at
0-based rank `n` within the filtered (level- and title-matching)
section list — the rank is recomputed per query over the filtered set,
not read from the section's stored occurrence index — and when the
filtered list has no rank `n` it returns exactly one placeholder record
with heading and body both absent (empty). -/
theorem C2_explicit_selects_filtered_rank (doc : Document) (level : Nat)
    (title : String) (n : Nat) (f : String) (opts : Options) :
    ExecuteQuery doc ⟨"section", level, title, n, true, f⟩ opts =
      match (specFilterSections doc.sections level title)[n]? with
      | some s => [mkSectionResult doc ⟨"section", level, title, n, true, f⟩ opts s]
      | none => [{ file := doc.filePath,
                   query := formatQuery ⟨"section", level, title, n, true, f⟩,
                   heading := "", body := "" }] := by
  have hne : ¬ ((⟨"section", level, title, n, true, f⟩ : Query).type = "frontmatter") :=
    show ¬ (("section" : String) = "frontmatter") by decide
  rw [ExecuteQuery, if_neg hne]
  have := execSections_explicit doc ⟨"section", level, title, n, true, f⟩ opts rfl
    doc.sections 0 (Nat.zero_le n)
  simpa using this

/-- C9: the canonical re-rendering of a section query reconstructs the
marker run of length `level` followed by the title, and appends a
bracketed index exactly when the explicit-index flag is set; in
particular a query parsed without a bracket suffix renders without one
(never a synthesized bracket-zero), while a query parsed from an
explicit bracket-zero suffix renders it back. -/
theorem C9_formatQuery_bracket_iff_explicit :
    (∀ (level : Nat) (title : String) (n : Nat) (ex : Bool) (f : String),
      formatQuery ⟨"section", level, title, n, ex, f⟩ =
        ⟨List.replicate level '#' ++ title.data ++
          (if ex then '[' :: (toString n).data ++ [']'] else [])⟩)
    ∧ (ParseQuery "##Notes").explicitIndex = false
    ∧ formatQuery (ParseQuery "##Notes") = "##Notes"
    ∧ (ParseQuery "##Notes[0]").explicitIndex = true
    ∧ (ParseQuery "##Notes[0]").index = 0
    ∧ formatQuery (ParseQuery "##Notes[0]") = "##Notes[0]" := by
  refine ⟨fun level title n ex f => ?_, by decide, by decide, by decide, by decide, by decide⟩
  rw [formatQuery,
    if_neg (show ¬ (("section" : String) = "frontmatter") by decide)]

/-- C8: `ParseDocument` never returns an error (the Go error result is
always nil); the parsed section list does not depend on the YAML
decoder at all, so a malformed metadata block still leaves the sections
after it parsed as usual, and a failing decode leaves the metadata
mapping empty. -/
theorem C8_malformed_metadata_swallowed (content path : String) (nb : Bool)
    (dec : String → Option (List (String × YamlValue))) :
    ParseDocumentE content path nb dec =
      Except.ok (ParseDocument content path nb dec)
    ∧ (ParseDocument content path nb dec).sections =
      (ParseDocument content path nb (fun _ => none)).sections
    ∧ (ParseDocument content path nb (fun _ => none)).frontmatter = [] := by
  refine ⟨rfl, ?_, ?_⟩
  · unfold ParseDocument
    cases hsl : splitLines content with
    | nil => rfl
    | cons first restLines =>
      by_cases hfm : trimSpace first = "---" <;> simp [hfm]
  · unfold ParseDocument
    cases hsl : splitLines content with
    | nil => rfl
    | cons first restLines =>
      by_cases hfm : trimSpace first = "---" <;> simp [hfm]

/-- C5 fails as stated: result records carry plain strings, so under a
projection with raw output the record for a present-but-null field and
the record for an absent field are identical — one concrete projection
setting where the two outcomes are not distinguishable in the returned
record. -/
theorem C5_counterexample :
    ExecuteQuery ⟨"f.md", [("a", YamlValue.vnull)], []⟩
        ⟨"frontmatter", 0, "", 0, false, "a"⟩
        ⟨false, false, false, false, true, false, false⟩ =
      ExecuteQuery ⟨"f.md", [], []⟩
        ⟨"frontmatter", 0, "", 0, false, "a"⟩
        ⟨false, false, false, false, true, false, false⟩ := by decide

/-- C5 amended: a frontmatter field present with a null value yields
body equal to the empty string and, when neither body-only nor raw
output is set, heading equal to the (non-empty) field name, while an
absent field yields heading and body both empty; under such a
projection the two outcomes are distinguishable (via the heading), but
not under every projection setting. -/
theorem C5_null_vs_absent_amended (path : String)
    (fm fm' : List (String × YamlValue)) (secs secs' : List Section)
    (field : String) (opts : Options) (hfield : field ≠ "")
    (hbo : opts.bodyOnly = false) (hraw : opts.rawOutput = false)
    (hp : lookupFm fm field = some YamlValue.vnull)
    (ha : lookupFm fm' field = none) :
    ExecuteQuery ⟨path, fm, secs⟩ ⟨"frontmatter", 0, "", 0, false, field⟩ opts =
      [⟨path, field, field, ""⟩]
    ∧ ExecuteQuery ⟨path, fm', secs'⟩ ⟨"frontmatter", 0, "", 0, false, field⟩ opts =
      [⟨path, field, "", ""⟩]
    ∧ ExecuteQuery ⟨path, fm, secs⟩ ⟨"frontmatter", 0, "", 0, false, field⟩ opts ≠
      ExecuteQuery ⟨path, fm', secs'⟩ ⟨"frontmatter", 0, "", 0, false, field⟩ opts := by
  have h1 : ExecuteQuery ⟨path, fm, secs⟩ ⟨"frontmatter", 0, "", 0, false, field⟩ opts =
      [⟨path, field, field, ""⟩] := by
    rw [ExecuteQuery, if_pos rfl]
    simp [hp, yamlBodyStr, hbo, hraw, formatQuery]
  have h2 : ExecuteQuery ⟨path, fm', secs'⟩ ⟨"frontmatter", 0, "", 0, false, field⟩ opts =
      [⟨path, field, "", ""⟩] := by
    rw [ExecuteQuery, if_pos rfl]
    simp [ha, formatQuery]
  refine ⟨h1, h2, ?_⟩
  rw [h1, h2]
  intro h
  exact hfield (by simpa using congrArg (fun l => (l.headD ⟨"", "", "", ""⟩).heading) h)

theorem C5_null_vs_absent_amended_witness :
    ExecuteQuery ⟨"f.md", [("a", YamlValue.vnull)], []⟩
        ⟨"frontmatter", 0, "", 0, false, "a"⟩
        ⟨false, false, false, false, false, false, false⟩ =
      [⟨"f.md", "a", "a", ""⟩]
    ∧ ExecuteQuery ⟨"f.md", [], []⟩
        ⟨"frontmatter", 0, "", 0, false, "a"⟩
        ⟨false, false, false, false, false, false, false⟩ =
      [⟨"f.md", "a", "", ""⟩]
    ∧ ExecuteQuery ⟨"f.md", [("a", YamlValue.vnull)], []⟩
        ⟨"frontmatter", 0, "", 0, false, "a"⟩
        ⟨false, false, false, false, false, false, false⟩ ≠
      ExecuteQuery ⟨"f.md", [], []⟩
        ⟨"frontmatter", 0, "", 0, false, "a"⟩
        ⟨false, false, false, false, false, false, false⟩ :=
  C5_null_vs_absent_amended "f.md" [("a", YamlValue.vnull)] [] [] [] "a"
    ⟨false, false, false, false, false, false, false⟩
    (by decide) rfl rfl (by decide) (by decide)

/-- C3 fails as stated: on a document whose text starts with non-heading
lines, those lines are retained — they end up at the front of the first
section's body, because the Go scan resets its body buffer only when a
previous section is closed. -/
theorem C3_counterexample :
    ∃ s ∈ (ParseDocument "preamble\n# Title\nbody" "f.md" false
        (fun _ => none)).sections,
      List.isPrefixOf "preamble".data s.body.data := by decide

/-- Non-heading lines accumulated while no section is open stay in the
pending body buffer across the preamble. -/
theorem parseSections_preamble :
    ∀ (pre : List String) (rest : List String) (counts : Nat → Nat)
      (bodyLines : List String), (∀ l ∈ pre, isHeadingLine l = false) →
      parseSections counts none bodyLines (pre ++ rest) =
        parseSections counts none (bodyLines ++ pre) rest
  | [], rest, counts, bodyLines, _ => by simp
  | p :: pre', rest, counts, bodyLines, h => by
    have hp : isHeadingLine p = false := h p (by simp)
    rw [List.cons_append, parseSections, if_neg (by simp [hp])]
    rw [parseSections_preamble pre' rest counts (bodyLines ++ [p])
      (fun l hl => h l (List.mem_cons_of_mem _ hl))]
    simp

/-- C3 amended: non-heading lines seen while no section is open are
carried along as pending body lines, so they are discarded only when no
heading follows (no section ever opens); when a heading does follow
they flow into the body of that first section. -/
theorem C3_preamble_amended (pre rest : List String) (counts : Nat → Nat)
    (bodyLines : List String)
    (h : ∀ l ∈ pre, isHeadingLine l = false) :
    parseSections counts none bodyLines (pre ++ rest) =
      parseSections counts none (bodyLines ++ pre) rest
    ∧ parseSections counts none bodyLines [] = [] :=
  ⟨parseSections_preamble pre rest counts bodyLines h, rfl⟩

theorem C3_preamble_amended_witness :
    parseSections (fun _ => 0) none [] (["x"] ++ ["# A"]) =
      parseSections (fun _ => 0) none ([] ++ ["x"]) ["# A"]
    ∧ parseSections (fun _ => 0) none [] [] = [] :=
  C3_preamble_amended ["x"] ["# A"] (fun _ => 0) [] (by decide)

/-- C4 fails as stated: with an unclosed leading delimiter all remaining
lines are consumed as the metadata block, not treated as section body
text — a heading line among them produces no section, while the same
lines without the delimiter would. -/
theorem C4_counterexample :
    (ParseDocument "---\n# A\nbody" "f.md" false (fun _ => none)).sections = []
    ∧ parseSections (fun _ => 0) none [] ["# A", "body"] ≠ [] := by decide

theorem splitFrontmatter_no_close (ls : List String)
    (h : ∀ l ∈ ls, trimSpace l ≠ "---") :
    splitFrontmatter ls = (ls, []) := by
  induction ls with
  | nil => rfl
  | cons l rest ih =>
    rw [splitFrontmatter, if_neg (h l (by simp))]
    rw [ih (fun x hx => h x (List.mem_cons_of_mem _ hx))]

/-- C4 amended: when the first line trims to the delimiter and no later
line does, `ParseDocument` terminates with an empty section list — the
remaining lines are all consumed as the (best-effort decoded) metadata
block, so heading lines among them yield no sections. -/
theorem C4_unclosed_frontmatter_amended (content path : String) (nb : Bool)
    (dec : String → Option (List (String × YamlValue)))
    (first : String) (restL : List String)
    (hsplit : splitLines content = first :: restL)
    (hfm : trimSpace first = "---")
    (hnoclose : ∀ l ∈ restL, trimSpace l ≠ "---") :
    (ParseDocument content path nb dec).sections = []
    ∧ (ParseDocument content path nb dec).frontmatter =
        (if restL ≠ [] then (dec (joinLines restL)).getD [] else []) := by
  unfold ParseDocument
  rw [hsplit]
  simp [hfm, splitFrontmatter_no_close restL hnoclose, parseSections]

theorem C4_unclosed_frontmatter_amended_witness :
    (ParseDocument "---\nx\n# A" "f.md" false (fun _ => none)).sections = []
    ∧ (ParseDocument "---\nx\n# A" "f.md" false (fun _ => none)).frontmatter =
        (if (["x", "# A"] : List String) ≠ [] then
          ((fun _ => (none : Option (List (String × YamlValue))))
            (joinLines ["x", "# A"])).getD []
        else []) :=
  C4_unclosed_frontmatter_amended "---\nx\n# A" "f.md" false (fun _ => none)
    "---" ["x", "# A"] (by decide) (by decide) (by decide)

/-- The lines the section scan runs on: everything after the metadata
block when a leading delimiter is present, the whole input otherwise. -/
def linesAfterFrontmatter (content : String) : List String :=
  match splitLines content with
  | [] => []
  | first :: restLines =>
    if trimSpace first = "---" then (splitFrontmatter restLines).2
    else first :: restLines

/-- Number of heading lines at a given level. -/
def countHeadingsAt (l : Nat) (lines : List String) : Nat :=
  (lines.filter (fun ln => isHeadingLine ln && (headingLevel ln == l))).length

theorem ParseDocument_sections (content path : String) (nb : Bool)
    (dec : String → Option (List (String × YamlValue))) :
    (ParseDocument content path nb dec).sections =
      (if nb then
        (parseSections (fun _ => 0) none [] (linesAfterFrontmatter content)).map
          (fun s => { s with body := removeCodeBlocks s.body })
      else parseSections (fun _ => 0) none [] (linesAfterFrontmatter content)) := by
  unfold ParseDocument linesAfterFrontmatter
  cases splitLines content with
  | nil => cases nb <;> rfl
  | cons first restLines =>
    by_cases hfm : trimSpace first = "---" <;> simp [hfm]

theorem parseSections_heading_projection :
    ∀ (lines : List String) (counts : Nat → Nat) (cur : Option Section)
      (bodyLines : List String),
      (parseSections counts cur bodyLines lines).map
          (fun s => (s.level, s.title, s.heading)) =
        cur.elim [] (fun s => [(s.level, s.title, s.heading)]) ++
          (lines.filter isHeadingLine).map
            (fun ln => (headingLevel ln, headingTitle ln, ln))
  | [], counts, cur, bodyLines => by
    cases cur <;> simp [parseSections, closeSection]
  | line :: rest, counts, cur, bodyLines => by
    by_cases hl : isHeadingLine line
    · simp only [parseSections]
      rw [if_pos (show isHeadingLine line = true from hl),
        List.filter_cons_of_pos hl]
      rw [List.map_append, parseSections_heading_projection rest]
      cases cur <;> simp [closeSection]
    · simp only [parseSections]
      rw [if_neg (by simp [hl]), List.filter_cons_of_neg (by simp [hl])]
      exact parseSections_heading_projection rest counts cur (bodyLines ++ [line])

theorem parseSections_index_ranks (l : Nat) :
    ∀ (lines : List String) (counts : Nat → Nat) (cur : Option Section)
      (bodyLines : List String),
      ((parseSections counts cur bodyLines lines).filter
          (fun s => s.level == l)).map (fun s => s.index) =
        cur.elim [] (fun s => if s.level = l then [s.index] else []) ++
          List.range' (counts l) (countHeadingsAt l lines)
  | [], counts, cur, bodyLines => by
    cases cur with
    | none => simp [parseSections, countHeadingsAt]
    | some s =>
      by_cases hsl : s.level = l <;>
        simp [parseSections, closeSection, countHeadingsAt, hsl]
  | line :: rest, counts, cur, bodyLines => by
    by_cases hl : isHeadingLine line
    · simp only [parseSections]
      rw [if_pos (show (isHeadingLine line = true) from hl)]
      rw [List.filter_append, List.map_append, parseSections_index_ranks l rest]
      by_cases hm : headingLevel line = l
      · have hcount : countHeadingsAt l (line :: rest) =
            countHeadingsAt l rest + 1 := by
          simp [countHeadingsAt, List.filter_cons, hl, hm]
        have hcounts' : (fun k => if k = headingLevel line then counts k + 1
            else counts k) l = counts l + 1 := by simp [hm]
        rw [hcount, List.range'_succ]
        cases cur with
        | none => simp [hm, hcounts', Nat.add_sub_cancel]
        | some s =>
          by_cases hsl : s.level = l <;>
            simp [hm, hcounts', hsl, closeSection, Nat.add_sub_cancel]
      · have hcount : countHeadingsAt l (line :: rest) = countHeadingsAt l rest := by
          simp [countHeadingsAt, List.filter_cons, hm]
        have hcounts' : (fun k => if k = headingLevel line then counts k + 1
            else counts k) l = counts l := by
          simp [Ne.symm hm]
        rw [hcount]
        cases cur with
        | none => simp [hm, hcounts']
        | some s =>
          by_cases hsl : s.level = l <;>
            simp [hm, hcounts', hsl, closeSection]
    · simp only [parseSections]
      rw [if_neg (by simp [hl])]
      have hcount : countHeadingsAt l (line :: rest) = countHeadingsAt l rest := by
        simp [countHeadingsAt, List.filter_cons, hl]
      rw [hcount]
      exact parseSections_index_ranks l rest counts cur (bodyLines ++ [line])

/-- C6: for every input, the sections of the parsed document correspond
one-to-one, in order, to the heading lines of the post-metadata text
(document order); and at every level the stored indices of the
sections of that level, read in document order, are 0, 1, 2, ... —
the occurrence index of the k-th same-level section is k, independent
of titles. -/
theorem C6_document_order_and_occurrence_index (content path : String)
    (nb : Bool) (dec : String → Option (List (String × YamlValue)))
    (l : Nat) :
    ((ParseDocument content path nb dec).sections.map
        (fun s => (s.level, s.title, s.heading))) =
      ((linesAfterFrontmatter content).filter isHeadingLine).map
        (fun ln => (headingLevel ln, headingTitle ln, ln))
    ∧ (((ParseDocument content path nb dec).sections.filter
          (fun s => s.level == l)).map (fun s => s.index)) =
      List.range
        (((ParseDocument content path nb dec).sections.filter
          (fun s => s.level == l)).length) := by
  have hsec := ParseDocument_sections content path nb dec
  set base := parseSections (fun _ => 0) none [] (linesAfterFrontmatter content)
    with hbase
  have hproj : (ParseDocument content path nb dec).sections.map
      (fun s => (s.level, s.title, s.heading)) =
      base.map (fun s => (s.level, s.title, s.heading)) := by
    rw [hsec]; cases nb <;> simp
  have hfilter : ((ParseDocument content path nb dec).sections.filter
      (fun s => s.level == l)).map (fun s => s.index) =
      (base.filter (fun s => s.level == l)).map (fun s => s.index) := by
    rw [hsec]; cases nb <;> simp [List.filter_map, Function.comp_def]
  have hlen : ((ParseDocument content path nb dec).sections.filter
      (fun s => s.level == l)).length =
      (base.filter (fun s => s.level == l)).length := by
    rw [hsec]; cases nb <;> simp [List.filter_map, Function.comp_def]
  have hranks := parseSections_index_ranks l (linesAfterFrontmatter content)
    (fun _ => 0) none []
  have hranks' : (base.filter (fun s => s.level == l)).map (fun s => s.index) =
      List.range' 0 (countHeadingsAt l (linesAfterFrontmatter content)) := by
    simpa using hranks
  constructor
  · rw [hproj]
    simpa using parseSections_heading_projection (linesAfterFrontmatter content)
      (fun _ => 0) none []
  · rw [hfilter, hlen, hranks']
    have : (base.filter (fun s => s.level == l)).length =
        countHeadingsAt l (linesAfterFrontmatter content) := by
      have := congrArg List.length hranks'
      simpa using this
    rw [this, List.range_eq_range']

theorem splitNlL_ne_nil : ∀ cs : List Char, splitNlL cs ≠ []
  | [] => by simp [splitNlL]
  | c :: rest => by
    rw [splitNlL]
    by_cases hc : c = '\n'
    · simp [hc]
    · rw [if_neg hc]
      cases h : splitNlL rest <;> simp

theorem mem_splitNlL_no_nl : ∀ (cs : List Char) (l : List Char),
    l ∈ splitNlL cs → '\n' ∉ l
  | [], l, hl => by
    simp [splitNlL] at hl
    simp [hl]
  | c :: rest, l, hl => by
    rw [splitNlL] at hl
    by_cases hc : c = '\n'
    · rw [if_pos hc] at hl
      rcases List.mem_cons.mp hl with h | h
      · simp [h]
      · exact mem_splitNlL_no_nl rest l h
    · rw [if_neg hc] at hl
      cases hsp : splitNlL rest with
      | nil => exact absurd hsp (splitNlL_ne_nil rest)
      | cons m ms =>
        rw [hsp] at hl
        rcases List.mem_cons.mp hl with h | h
        · subst h
          intro hmem
          rcases List.mem_cons.mp hmem with h | h
          · exact hc h.symm
          · exact mem_splitNlL_no_nl rest m (by simp [hsp]) h
        · exact mem_splitNlL_no_nl rest l (by simp [hsp, h])

theorem joinNlL_splitNlL : ∀ cs : List Char, joinNlL (splitNlL cs) = cs
  | [] => by simp [splitNlL, joinNlL]
  | c :: rest => by
    rw [splitNlL]
    by_cases hc : c = '\n'
    · rw [if_pos hc]
      have hne := splitNlL_ne_nil rest
      cases hsp : splitNlL rest with
      | nil => exact absurd hsp hne
      | cons m ms =>
        have := joinNlL_splitNlL rest
        rw [hsp] at this
        simp [joinNlL, hc, this]
    · rw [if_neg hc]
      have hne := splitNlL_ne_nil rest
      cases hsp : splitNlL rest with
      | nil => exact absurd hsp hne
      | cons m ms =>
        have := joinNlL_splitNlL rest
        rw [hsp] at this
        cases ms with
        | nil => simpa [joinNlL] using congrArg (c :: ·) this
        | cons m2 ms2 => simpa [joinNlL] using congrArg (c :: ·) this

theorem splitNlL_of_no_nl : ∀ l : List Char, '\n' ∉ l → splitNlL l = [l]
  | [], _ => rfl
  | c :: rest, h => by
    rw [splitNlL, if_neg (fun hc => h (by simp [hc])),
      splitNlL_of_no_nl rest (fun hm => h (List.mem_cons_of_mem _ hm))]

theorem splitNlL_append_nl : ∀ (l cs : List Char), '\n' ∉ l →
    splitNlL (l ++ '\n' :: cs) = l :: splitNlL cs
  | [], cs, _ => by simp [splitNlL]
  | c :: rest, cs, h => by
    rw [List.cons_append, splitNlL, if_neg (fun hc => h (by simp [hc])),
      splitNlL_append_nl rest cs (fun hm => h (List.mem_cons_of_mem _ hm))]

theorem splitNlL_joinNlL : ∀ ls : List (List Char), ls ≠ [] →
    (∀ l ∈ ls, '\n' ∉ l) → splitNlL (joinNlL ls) = ls
  | [], h, _ => absurd rfl h
  | [l], _, h => by
    rw [joinNlL, splitNlL_of_no_nl l (h l (by simp))]
  | l :: l2 :: ls, _, h => by
    have hne : l2 :: ls ≠ [] := fun hh => List.noConfusion hh
    have ih := splitNlL_joinNlL (l2 :: ls) hne
      (fun x hx => h x (List.mem_cons_of_mem _ hx))
    rw [joinNlL, splitNlL_append_nl l _ (h l (by simp)), ih]
    exact fun hh => List.noConfusion hh

theorem getLast?_splitNlL : ∀ cs : List Char, cs ≠ [] →
    cs.getLast? ≠ some '\n' → (splitNlL cs).getLast? ≠ some []
  | [], h, _ => absurd rfl h
  | [c], _, h => by
    have hc : ¬ (c = '\n') := by simpa using h
    rw [splitNlL, if_neg hc]
    simp [splitNlL]
  | c :: c2 :: rest, _, h => by
    have htail : (c2 :: rest).getLast? ≠ some '\n' := by
      simpa [List.getLast?_cons_cons] using h
    have ih := getLast?_splitNlL (c2 :: rest) (by simp) htail
    rw [splitNlL]
    by_cases hc : c = '\n'
    · rw [if_pos hc]
      cases hsp : splitNlL (c2 :: rest) with
      | nil => exact absurd hsp (splitNlL_ne_nil _)
      | cons m ms =>
        rw [hsp] at ih
        simpa [List.getLast?_cons_cons] using ih
    · rw [if_neg hc]
      cases hsp : splitNlL (c2 :: rest) with
      | nil => exact absurd hsp (splitNlL_ne_nil _)
      | cons m ms =>
        rw [hsp] at ih
        cases ms with
        | nil => simp
        | cons m2 ms2 => simpa [List.getLast?_cons_cons] using ih

theorem trimRightNlL_append_nl (x : List Char) :
    trimRightNlL (x ++ ['\n']) = trimRightNlL x := by
  simp [trimRightNlL, List.reverse_append]

theorem trimRightNlL_of_getLast (cs : List Char)
    (h : cs.getLast? ≠ some '\n') : trimRightNlL cs = cs := by
  unfold trimRightNlL
  cases hr : cs.reverse with
  | nil => simp [List.reverse_eq_nil_iff.mp hr]
  | cons c t =>
    have hc : ¬ (c = '\n') := by
      intro hc
      apply h
      rw [← List.head?_reverse, hr, hc]
      rfl
    rw [List.dropWhile_cons, if_neg (by simpa using hc), ← hr,
      List.reverse_reverse]

theorem head?_dropWhile_false {α : Type} :
    ∀ (p : α → Bool) (l : List α) (a : α),
      (l.dropWhile p).head? = some a → p a = false
  | p, [], a => by simp
  | p, c :: t, a => by
    rw [List.dropWhile_cons]
    by_cases hp : p c
    · rw [if_pos hp]
      exact head?_dropWhile_false p t a
    · rw [if_neg hp]
      intro h
      have : c = a := by simpa using h
      subst this
      simpa using hp

theorem getLast?_trimRightNlL (cs : List Char) :
    (trimRightNlL cs).getLast? ≠ some '\n' := by
  unfold trimRightNlL
  rw [List.getLast?_reverse]
  intro h
  have := head?_dropWhile_false (fun c => c = '\n') cs.reverse '\n' h
  simp at this

/-- The per-line writer of removeCodeBlocks, at the character level. -/
def appendNlL (ks : List (List Char)) : List Char :=
  (ks.map (fun l => l ++ ['\n'])).flatten

theorem appendNl_eq (ls : List String) :
    appendNl ls = appendNlL (ls.map String.data) := by
  simp [appendNl, appendNlL, List.map_map, Function.comp_def]

/-- Trailing empty lines, which the rebuild-then-trim step of
removeCodeBlocks erases. -/
def dropTrailingNils (ks : List (List Char)) : List (List Char) :=
  (ks.reverse.dropWhile (fun l => l.isEmpty)).reverse

theorem joinNlL_concat : ∀ (ks : List (List Char)) (l : List Char),
    joinNlL (ks ++ [l]) = appendNlL ks ++ l
  | [], l => by simp [joinNlL, appendNlL]
  | k :: ks, l => by
    rw [List.cons_append, joinNlL]
    · rw [joinNlL_concat ks l]
      simp [appendNlL]
    · simp

theorem trimRightNlL_appendNlL : ∀ ks : List (List Char),
    (∀ l ∈ ks, '\n' ∉ l) →
    trimRightNlL (appendNlL ks) = joinNlL (dropTrailingNils ks) := by
  intro ks
  induction ks using List.reverseRecOn with
  | nil => intro _; simp [appendNlL, trimRightNlL, joinNlL, dropTrailingNils]
  | append_singleton ks l ih =>
    intro h
    have hl : '\n' ∉ l := h l (by simp)
    have hks : ∀ x ∈ ks, '\n' ∉ x := fun x hx => h x (by simp [hx])
    rw [show appendNlL (ks ++ [l]) = appendNlL ks ++ (l ++ ['\n']) by
      simp [appendNlL]]
    rw [← List.append_assoc, trimRightNlL_append_nl]
    by_cases hle : l = []
    · subst hle
      rw [List.append_nil, ih hks]
      have : dropTrailingNils (ks ++ [[]]) = dropTrailingNils ks := by
        simp [dropTrailingNils]
      rw [this]
    · have hlast : (appendNlL ks ++ l).getLast? ≠ some '\n' := by
        rw [List.getLast?_append_of_ne_nil _ hle]
        intro hx
        obtain ⟨hne, hx'⟩ := List.mem_getLast?_eq_getLast (x := '\n') hx
        exact hl (hx' ▸ List.getLast_mem hne)
      rw [trimRightNlL_of_getLast _ hlast]
      have : dropTrailingNils (ks ++ [l]) = ks ++ [l] := by
        simp [dropTrailingNils, List.dropWhile_cons, hle]
      rw [this, joinNlL_concat]

theorem dropCR_of_getLast (l : List Char) (h : l.getLast? ≠ some '\r') :
    dropCR l = l := by
  rw [dropCR, if_neg h]

theorem dropCR_getLast (l : List Char) (h : ¬ (['\r', '\r'] <:+ l)) :
    (dropCR l).getLast? ≠ some '\r' := by
  have h' : ¬ (['\r', '\r'] <+: l.reverse) := by
    intro hp
    apply h
    obtain ⟨t, ht⟩ := hp
    refine ⟨t.reverse, ?_⟩
    have h2 := congrArg List.reverse ht
    simpa using h2
  have hl : l = l.reverse.reverse := (List.reverse_reverse l).symm
  cases hr : l.reverse with
  | nil =>
    have : l = [] := by rw [hl, hr]; rfl
    subst this
    simp [dropCR]
  | cons c t =>
    have hlc : l = t.reverse ++ [c] := by
      rw [hl, hr, List.reverse_cons]
    by_cases hc : c = '\r'
    · subst hc
      rw [hlc, dropCR, if_pos (List.getLast?_concat _), List.dropLast_concat,
        List.getLast?_reverse]
      intro ht
      apply h'
      rw [hr]
      cases t with
      | nil => simp at ht
      | cons c2 t2 =>
        have : c2 = '\r' := by simpa using ht
        subst this
        exact ⟨t2, rfl⟩
    · rw [hlc, dropCR, if_neg (by rw [List.getLast?_concat]; simp [hc]),
        List.getLast?_concat]
      simp [hc]

theorem removeCodeBlocksLoop_all_keep :
    ∀ ls : List String, (∀ l ∈ ls, strStartsWith (trimSpace l) "```" = false) →
      removeCodeBlocksLoop false ls = ls
  | [], _ => rfl
  | l :: rest, h => by
    rw [removeCodeBlocksLoop, if_neg (by simp [h l (by simp)]),
      if_neg (by simp),
      removeCodeBlocksLoop_all_keep rest
        (fun x hx => h x (List.mem_cons_of_mem _ hx))]

theorem mem_removeCodeBlocksLoop :
    ∀ (b : Bool) (ls : List String) (x : String),
      x ∈ removeCodeBlocksLoop b ls →
      x ∈ ls ∧ strStartsWith (trimSpace x) "```" = false
  | b, [], x, hx => by simp [removeCodeBlocksLoop] at hx
  | b, l :: rest, x, hx => by
    rw [removeCodeBlocksLoop] at hx
    by_cases hf : strStartsWith (trimSpace l) "```" = true
    · rw [if_pos hf] at hx
      obtain ⟨h1, h2⟩ := mem_removeCodeBlocksLoop (!b) rest x hx
      exact ⟨List.mem_cons_of_mem _ h1, h2⟩
    · rw [if_neg hf] at hx
      by_cases hb : b = true
      · rw [if_pos hb] at hx
        obtain ⟨h1, h2⟩ := mem_removeCodeBlocksLoop b rest x hx
        exact ⟨List.mem_cons_of_mem _ h1, h2⟩
      · rw [if_neg hb] at hx
        rcases List.mem_cons.mp hx with h | h
        · subst h
          exact ⟨by simp, by simpa using hf⟩
        · obtain ⟨h1, h2⟩ := mem_removeCodeBlocksLoop b rest x h
          exact ⟨List.mem_cons_of_mem _ h1, h2⟩

theorem mem_scanLines (s : String) (x : String) (hx : x ∈ scanLines s) :
    ∃ l ∈ splitNlL s.data, x = ⟨dropCR l⟩ := by
  unfold scanLines at hx
  obtain ⟨l, hmem, rfl⟩ := List.mem_map.mp hx
  refine ⟨l, ?_, rfl⟩
  by_cases hl : (splitNlL s.data).getLast? = some []
  · rw [if_pos hl] at hmem
    exact List.mem_of_mem_dropLast hmem
  · rw [if_neg hl] at hmem
    exact hmem

theorem dropTrailingNils_of_getLast (ks : List (List Char))
    (h : ks.getLast? ≠ some []) : dropTrailingNils ks = ks := by
  unfold dropTrailingNils
  cases hr : ks.reverse with
  | nil =>
    have : ks = [] := by simpa using congrArg List.reverse hr
    subst this
    rfl
  | cons c t =>
    have hc : c ≠ [] := by
      intro hce
      apply h
      rw [← List.head?_reverse, hr, hce]
      rfl
    rw [List.dropWhile_cons, if_neg (by simpa [List.isEmpty_iff] using hc),
      ← hr, List.reverse_reverse]

theorem mem_dropTrailingNils (ks : List (List Char)) (x : List Char)
    (hx : x ∈ dropTrailingNils ks) : x ∈ ks := by
  unfold dropTrailingNils at hx
  rw [List.mem_reverse] at hx
  exact List.mem_reverse.mp ((List.dropWhile_sublist _).subset hx)

theorem getLast?_dropTrailingNils (ks : List (List Char)) :
    (dropTrailingNils ks).getLast? ≠ some [] := by
  unfold dropTrailingNils
  rw [List.getLast?_reverse]
  intro h
  have := head?_dropWhile_false (fun l => l.isEmpty) ks.reverse [] h
  simp at this

/-- The fixed-point core of the Code-Fence Filter: on text with no fence
lines, no line ending in a carriage return, and no trailing newline,
`removeCodeBlocks` is the identity. -/
theorem removeCodeBlocks_fixpoint (s : String)
    (hfence : ∀ l ∈ splitLines s, strStartsWith (trimSpace l) "```" = false)
    (hcr : ∀ l ∈ splitNlL s.data, l.getLast? ≠ some '\r')
    (hnl : s.data.getLast? ≠ some '\n') :
    removeCodeBlocks s = s := by
  obtain ⟨cs⟩ := s
  by_cases hcs : cs = []
  · subst hcs
    rfl
  · have hscan : scanLines ⟨cs⟩ = (splitNlL cs).map (fun l => ⟨l⟩) := by
      simp only [scanLines]
      rw [if_neg (getLast?_splitNlL cs hcs hnl)]
      exact List.map_congr_left (fun l hl => by rw [dropCR_of_getLast l (hcr l hl)])
    have hloop : removeCodeBlocksLoop false ((splitNlL cs).map (fun l => ⟨l⟩)) =
        (splitNlL cs).map (fun l => ⟨l⟩) :=
      removeCodeBlocksLoop_all_keep _ (fun l hl => hfence l hl)
    have happ : appendNl ((splitNlL cs).map (fun l => ⟨l⟩)) =
        appendNlL (splitNlL cs) := by
      rw [appendNl_eq, List.map_map]
      have hid : (String.data ∘ fun l : List Char => (⟨l⟩ : String)) = id := rfl
      rw [hid, List.map_id]
    have htrim := trimRightNlL_appendNlL (splitNlL cs)
      (fun l hl => mem_splitNlL_no_nl cs l hl)
    rw [removeCodeBlocks, hscan, hloop, happ]
    show (⟨trimRightNlL (appendNlL (splitNlL cs))⟩ : String) = ⟨cs⟩
    rw [htrim, dropTrailingNils_of_getLast _ (getLast?_splitNlL cs hcs hnl),
      joinNlL_splitNlL]

/-- C7 fails as stated: the filter rebuilds the text line by line, so a
marker-free body that ends in a newline loses that newline — here no
line of the body starts with a fence token after trimming, yet the
filter is not the identity. -/
theorem C7_counterexample :
    (∀ l ∈ splitLines ("a\n" : String),
      strStartsWith (trimSpace l) "```" = false)
    ∧ removeCodeBlocks ("a\n" : String) ≠ ("a\n" : String) := by
  exact ⟨by decide, by decide⟩

/-- C7 amended: the Code-Fence Filter is the identity on a body string
with no line whose trimmed form starts with the fence token, provided
additionally that no line of the body ends with a carriage return and
the body does not end with a newline (the filter strips both). -/
theorem C7_no_fence_noop_amended (s : String)
    (hfence : ∀ l ∈ splitLines s, strStartsWith (trimSpace l) "```" = false)
    (hcr : ∀ l ∈ splitNlL s.data, l.getLast? ≠ some '\r')
    (hnl : s.data.getLast? ≠ some '\n') :
    removeCodeBlocks s = s :=
  removeCodeBlocks_fixpoint s hfence hcr hnl

theorem C7_no_fence_noop_amended_witness :
    removeCodeBlocks ("ab\ncd" : String) = ("ab\ncd" : String) :=
  C7_no_fence_noop_amended "ab\ncd" (by decide) (by decide) (by decide)

/-- C10 fails as stated: each pass of the filter strips one carriage
return from a line end, so a line ending in two carriage returns still
changes on the second pass. -/
theorem C10_counterexample :
    removeCodeBlocks (removeCodeBlocks ("ab\r\r\nx" : String)) ≠
      removeCodeBlocks ("ab\r\r\nx" : String) := by decide

/-- C10 amended: the Code-Fence Filter is idempotent on every string in
which no line ends with two carriage returns; a single pass leaves no
fence lines, no trailing newline, and (under that proviso) no line
ending in a carriage return, so a second pass is the identity. -/
theorem C10_idempotent_amended (s : String)
    (h : ∀ l ∈ splitNlL s.data, ¬ (['\r', '\r'] <:+ l)) :
    removeCodeBlocks (removeCodeBlocks s) = removeCodeBlocks s := by
  set ks := removeCodeBlocksLoop false (scanLines s) with hks
  have hksfacts : ∀ x ∈ ks, '\n' ∉ x.data ∧ x.data.getLast? ≠ some '\r' ∧
      strStartsWith (trimSpace x) "```" = false := by
    intro x hx
    obtain ⟨hmem, hfence⟩ := mem_removeCodeBlocksLoop false (scanLines s) x
      (hks ▸ hx)
    obtain ⟨l, hl, rfl⟩ := mem_scanLines s x hmem
    refine ⟨?_, dropCR_getLast l (h l hl), hfence⟩
    intro hm
    apply mem_splitNlL_no_nl s.data l hl
    revert hm
    show '\n' ∈ dropCR l → '\n' ∈ l
    unfold dropCR
    by_cases hcr2 : l.getLast? = some '\r'
    · rw [if_pos hcr2]
      exact List.mem_of_mem_dropLast
    · rw [if_neg hcr2]
      exact id
  have htdata : (removeCodeBlocks s).data =
      trimRightNlL (appendNlL (ks.map String.data)) := by
    show trimRightNlL (appendNl ks) = _
    rw [appendNl_eq]
  have hm1 : ∀ ld ∈ ks.map String.data, '\n' ∉ ld := by
    intro ld hld
    obtain ⟨x, hx, rfl⟩ := List.mem_map.mp hld
    exact (hksfacts x hx).1
  have htrim : trimRightNlL (appendNlL (ks.map String.data)) =
      joinNlL (dropTrailingNils (ks.map String.data)) :=
    trimRightNlL_appendNlL _ hm1
  set ds := dropTrailingNils (ks.map String.data) with hds
  have hds_sub : ∀ ld ∈ ds, ld ∈ ks.map String.data :=
    fun ld hld => mem_dropTrailingNils _ ld hld
  apply removeCodeBlocks_fixpoint
  · intro l hl
    simp only [splitLines] at hl
    rw [htdata, htrim] at hl
    by_cases hdse : ds = []
    · rw [hdse] at hl
      simp only [joinNlL, splitNlL, List.map] at hl
      have : l = ⟨[]⟩ := by simpa using hl
      subst this
      decide
    · rw [splitNlL_joinNlL ds hdse (fun x hx => hm1 x (hds_sub x hx))] at hl
      obtain ⟨ld, hld, rfl⟩ := List.mem_map.mp hl
      obtain ⟨x, hx, rfl⟩ := List.mem_map.mp (hds_sub ld hld)
      exact (hksfacts x hx).2.2
  · intro l hl
    rw [htdata, htrim] at hl
    by_cases hdse : ds = []
    · rw [hdse] at hl
      simp only [joinNlL, splitNlL] at hl
      have : l = [] := by simpa using hl
      subst this
      simp
    · rw [splitNlL_joinNlL ds hdse (fun x hx => hm1 x (hds_sub x hx))] at hl
      obtain ⟨x, hx, rfl⟩ := List.mem_map.mp (hds_sub l hl)
      exact (hksfacts x hx).2.1
  · rw [htdata]
    exact getLast?_trimRightNlL _

theorem C10_idempotent_amended_witness :
    removeCodeBlocks (removeCodeBlocks ("a\n```go\ncode\n```\nb\n\n" : String)) =
      removeCodeBlocks ("a\n```go\ncode\n```\nb\n\n" : String) :=
  C10_idempotent_amended "a\n```go\ncode\n```\nb\n\n" (by decide)

end Mdq
